import Mathlib

/-!
Request framing of the rumor req/resp engine.

A shallow embedding of

* `p2p/rpc/reqresp/handle_request.go` (`RequestPayloadHandler.MakeStreamHandler`), and
* `control/actor/peer/status/serve.go` (`PeerStatusServeCmd.Run` and its `listenReq` closure),

followed by the properties of the framing layer: rejection of oversized and malformed
length headers, the read budget handed to the request handler, the deferred clean-up, the
protocol identifier a listener registers under, and the chunks the status listener writes.

Conventions.  A Go `uint64` is a natural number below `2 ^ 64`; arithmetic that can leave
that range is reduced `% 2 ^ 64` where the Go code would wrap.  A Go `int` is the 64-bit
signed integer of the usual targets and is an `Int` here; the conversion `int(x)` is
`intOfUint64`.  A Go `error` is an `Option GoError`, `none` being `nil`.
-/

namespace reqresp

/-! ## Data model -/

/-- A byte on the wire. -/
abbrev Byte := Fin 256

/-- The error values that the framing code can see or make. -/
inductive GoError where
  /-- The value `io.EOF`. -/
  | EOF
  /-- The value `io.ErrUnexpectedEOF`. -/
  | ErrUnexpectedEOF
  /-- The value `errOverflow` of `encoding/binary` (varint overflows a 64-bit integer). -/
  | errOverflow
  /-- The error built by `fmt.Errorf("request length %d exceeds request size limit %d", ..)`. -/
  | requestTooLarge (reqLen limit : Nat)
  /-- The failure of a read from a `BufLimitReader` whose budget is used up. -/
  | readBudgetExceeded
  /-- Any other error: a transport failure, an error returned by a codec, ... -/
  | other (msg : String)
  deriving DecidableEq, Repr

/-- The read side of a `network.Stream`: the bytes the peer delivers, and the error a read
reports once they are used up (`io.EOF` after a clean close, something else after a reset
or after the watcher has closed the stream under a read that was waiting for data). -/
structure Stream where
  data : List Byte
  endErr : GoError
  deriving DecidableEq, Repr

/-- The `Compression` interface, as far as the framing code calls it.  `MaxEncodedLen`
takes a `uint64` and returns a `(uint64, error)` pair; both components are kept, as a Go
function may fill both. `Compress` and `Decompress` only wrap a writer or reader and are
recorded as a flag on `Reader` and `Writer` below. -/
structure Compression where
  Name : String
  MaxEncodedLen : Nat → Nat × Option GoError

/-- Modelled from the spec: the `BufLimitReader` type (its file is not part of the sources
at hand). Section 4.1: it wraps an underlying byte source `rd` and a mutable remaining
budget `N`; the code assigns `N` an `int`. -/
structure BufLimitReader where
  rd : Stream
  N : Int
  deriving DecidableEq, Repr

/-- The constant `requestBufferSize`. -/
def requestBufferSize : Nat := 2048

/-- Modelled from the spec: the constructor `NewBufLimitReader(rd, size, limit)`. The
buffer size only sets how much is fetched from the stream at a time and has no effect on
the bytes a caller sees. -/
def NewBufLimitReader (rd : Stream) (_size : Nat) (limit : Int) : BufLimitReader :=
  { rd := rd, N := limit }

/-- Modelled from the spec: `BufLimitReader.ReadByte`. Section 4.1: once the budget has
reached zero a read fails, however much data the source still holds; otherwise the read
takes one byte from the source and one unit from the budget, or reports the source's
error when the source is used up. -/
def BufLimitReader.ReadByte (b : BufLimitReader) : Except GoError Byte × BufLimitReader :=
  if b.N ≤ 0 then (.error .readBudgetExceeded, b)
  else
    match b.rd.data with
    | [] => (.error b.rd.endErr, b)
    | c :: rest => (.ok c, { rd := { b.rd with data := rest }, N := b.N - 1 })

/-- Modelled from the spec: `BufLimitReader.Read(p)` with `len(p) = n`, as the list of
bytes it yields. At most `n` bytes, at most the budget, at most what the source holds. -/
def BufLimitReader.Read (b : BufLimitReader) (n : Nat) : List Byte × BufLimitReader :=
  let k := min n (min b.N.toNat b.rd.data.length)
  (b.rd.data.take k, { rd := { b.rd with data := b.rd.data.drop k }, N := b.N - k })

/-- The constant `binary.MaxVarintLen64`. -/
def MaxVarintLen64 : Nat := 10

/-- The loop of `binary.ReadUvarint`, `for i := 0; i < MaxVarintLen64; i++`, entered at
iteration `i` with accumulator `x` and shift `s`; `todo` is the number of iterations that
remain, `MaxVarintLen64 - i`.  Returns Go's `(uint64, error)` and the reader afterwards. -/
def ReadUvarint.loop :
    Nat → Nat → Nat → Nat → BufLimitReader → (Nat × Option GoError) × BufLimitReader
  | 0, _, x, _, r => ((x, some .errOverflow), r)
  | todo + 1, i, x, s, r =>
    match r.ReadByte with
    | (.error err, r') =>
      ((x, some (if 0 < i ∧ err = .EOF then .ErrUnexpectedEOF else err)), r')
    | (.ok b, r') =>
      if b.val < 0x80 then
        if i = MaxVarintLen64 - 1 ∧ 1 < b.val then ((x, some .errOverflow), r')
        else ((x ||| (b.val <<< s) % 2 ^ 64, none), r')
      else
        ReadUvarint.loop todo (i + 1) (x ||| ((b.val &&& 0x7f) <<< s) % 2 ^ 64) (s + 7) r'

/-- The function `binary.ReadUvarint` of the current Go standard library, reading from a
`BufLimitReader`. The bound of the loop dates from Go 1.15; `ReadUvarintLegacy` below is the
function before that. -/
def ReadUvarint (r : BufLimitReader) : (Nat × Option GoError) × BufLimitReader :=
  ReadUvarint.loop MaxVarintLen64 0 0 0 r

/-- The loop of `binary.ReadUvarint` as it was before Go 1.15, `for i := 0; ; i++`, which
has no bound of its own and ends only on a read error or on a byte without continuation
bit. `fuel` bounds the number of iterations of the model; `none` means that it ran out. -/
def ReadUvarintLegacy.loop :
    Nat → Nat → Nat → Nat → BufLimitReader →
      Option ((Nat × Option GoError) × BufLimitReader)
  | 0, _, _, _, _ => none
  | fuel + 1, i, x, s, r =>
    match r.ReadByte with
    | (.error err, r') => some ((x, some err), r')
    | (.ok b, r') =>
      if b.val < 0x80 then
        if 9 < i ∨ (i = 9 ∧ 1 < b.val) then some ((x, some .errOverflow), r')
        else some ((x ||| (b.val <<< s) % 2 ^ 64, none), r')
      else
        ReadUvarintLegacy.loop fuel (i + 1) (x ||| ((b.val &&& 0x7f) <<< s) % 2 ^ 64)
          (s + 7) r'

/-- The function `binary.ReadUvarint` as it was before Go 1.15. -/
def ReadUvarintLegacy (fuel : Nat) (r : BufLimitReader) :
    Option ((Nat × Option GoError) × BufLimitReader) :=
  ReadUvarintLegacy.loop fuel 0 0 0 r

/-- The conversion `int(x)` of a `uint64` to the 64-bit `int`: the same 64 bits read as a
two's complement number. -/
def intOfUint64 (x : Nat) : Int :=
  if x % 2 ^ 64 < 2 ^ 63 then ((x % 2 ^ 64 : Nat) : Int) else ((x % 2 ^ 64 : Nat) : Int) - 2 ^ 64

/-- The `io.Reader` handed to the request handler: the bounded reader, behind the codec's
`Decompress` wrapper when a codec is configured. -/
structure Reader where
  blr : BufLimitReader
  decompress : Option String
  deriving DecidableEq, Repr

/-- The `io.WriteCloser` handed to the request handler: the stream itself, or the codec's
`Compress` wrapper around it. -/
inductive Writer where
  | stream
  | compress (codec : String)
  deriving DecidableEq, Repr

/-- The arguments of one call of a `RequestPayloadHandler` (context and peer id apart). -/
structure HandlerCall where
  requestLen : Nat
  r : Reader
  w : Writer
  invalidInputErr : Option GoError
  deriving DecidableEq, Repr

/-- How the call of the request handler ends. Deferred calls run in both cases. -/
inductive HandlerOutcome where
  | returned
  | panicked
  deriving DecidableEq, Repr

/-- What the goroutine that runs the stream handler does, in order. -/
inductive Event where
  /-- The statement `go func() { <-ctx.Done(); _ = stream.Close() }()`. -/
  | goWatcher
  /-- The call `handle(ctx, peerId, reqLen, r, w, invalidInputErr)` and how it ended. -/
  | handle (call : HandlerCall) (outcome : HandlerOutcome)
  /-- The deferred `w.Close()`. -/
  | closeWriter (w : Writer)
  /-- The deferred `cancel()`. -/
  | cancel
  deriving DecidableEq, Repr

/-! ## `MakeStreamHandler` -/

/-- Lines 33 to 57 of `handle_request.go`: the length header is read with a budget of 10,
checked, and the reader is re-armed.  Returns `reqLen`, `invalidInputErr` and `blr`. -/
def MakeStreamHandler.header (comp : Option Compression) (maxRequestContentSize : Nat)
    (stream : Stream) : Nat × Option GoError × BufLimitReader :=
  let blr := NewBufLimitReader stream requestBufferSize 0
  let blr := { blr with N := 10 }
  let ((reqLen, err), blr) := ReadUvarint blr
  let (invalidInputErr, maxRequestContentSize) : Option GoError × Nat :=
    match err with
    | some e => (some e, maxRequestContentSize)
    | none =>
      if reqLen > maxRequestContentSize then
        (some (.requestTooLarge reqLen maxRequestContentSize), maxRequestContentSize)
      else
        match comp with
        | some c =>
          match c.MaxEncodedLen maxRequestContentSize with
          | (_, some e) => (some e, maxRequestContentSize)
          | (s, none) => (none, s)
        | none => (none, maxRequestContentSize)
  let maxRequestContentSize := if invalidInputErr ≠ none then 0 else maxRequestContentSize
  let blr := { blr with N := intOfUint64 maxRequestContentSize }
  (reqLen, invalidInputErr, blr)

/-- The call of the request handler that the stream handler makes (line 65). -/
def MakeStreamHandler.call (comp : Option Compression) (maxRequestContentSize : Nat)
    (stream : Stream) : HandlerCall :=
  let (reqLen, invalidInputErr, blr) := MakeStreamHandler.header comp maxRequestContentSize stream
  match comp with
  | some c =>
    { requestLen := reqLen, r := { blr := blr, decompress := some c.Name },
      w := .compress c.Name, invalidInputErr := invalidInputErr }
  | none =>
    { requestLen := reqLen, r := { blr := blr, decompress := none },
      w := .stream, invalidInputErr := invalidInputErr }

/-- The stream handler returned by `MakeStreamHandler(newCtx, comp, maxRequestContentSize)`,
run on `stream` with a request handler that ends as `outcome`: the events of its goroutine.
The deferred calls run last in first out: `w.Close()` (deferred only under `comp != nil`),
then `cancel()`. -/
def MakeStreamHandler (comp : Option Compression) (maxRequestContentSize : Nat)
    (stream : Stream) (outcome : HandlerOutcome) : List Event :=
  let call := MakeStreamHandler.call comp maxRequestContentSize stream
  match comp with
  | some _ => [.goWatcher, .handle call outcome, .closeWriter call.w, .cancel]
  | none => [.goWatcher, .handle call outcome, .cancel]

/-! ## Unsigned varints, as a peer writes them -/

/-- The number that a little-endian sequence of 7-bit groups stands for. -/
def uvarintValue : List Byte → Nat
  | [] => 0
  | b :: bs => b.val % 128 + 128 * uvarintValue bs

/-- The bytes `cs ++ [t]` are a complete, in-range unsigned varint: every byte of `cs`
carries the continuation bit, `t` does not, there are at most `MaxVarintLen64` bytes, and a
tenth byte holds at most the one bit that is left of the 64. -/
def IsUvarint (cs : List Byte) (t : Byte) : Prop :=
  (∀ c ∈ cs, 0x80 ≤ c.val) ∧ t.val < 0x80 ∧ cs.length < MaxVarintLen64 ∧
    (cs.length = MaxVarintLen64 - 1 → t.val ≤ 1)

instance (cs : List Byte) (t : Byte) : Decidable (IsUvarint cs t) :=
  @instDecidableAnd _ _ (List.decidableBAll (fun c : Byte => 0x80 ≤ c.val) cs) inferInstance

/-- The loop of `binary.PutUvarint`, `for x >= 0x80 { buf[i] = byte(x) | 0x80; x >>= 7 }`
followed by `buf[i] = byte(x)`, as the bytes written. `fuel` bounds the number of
iterations of the model; `none` means that it ran out. -/
def PutUvarint.loop : Nat → Nat → Option (List Byte)
  | 0, x => if x ≥ 0x80 then none else some [Fin.ofNat x]
  | fuel + 1, x =>
    if x ≥ 0x80 then
      (PutUvarint.loop fuel (x >>> 7)).map (fun bs => Fin.ofNat (x % 256 ||| 0x80) :: bs)
    else some [Fin.ofNat x]

/-- The function `binary.PutUvarint` of the Go standard library on a `uint64`, for which
nine iterations of the loop are enough. -/
def PutUvarint (x : Nat) : Option (List Byte) :=
  PutUvarint.loop 9 x

/-- The byte sequence `data` starts with a complete, in-range unsigned varint. -/
def StartsWithUvarint (data : List Byte) : Prop :=
  ∃ cs t body, data = cs ++ t :: body ∧ IsUvarint cs t

/-- The leading bytes of `data` are not a complete, in-range unsigned varint, in one of
three ways: the data ends before a byte without the continuation bit; ten bytes in a row
carry the continuation bit; or the tenth byte ends the varint with more than the one bit
that is left of the 64. -/
def MalformedUvarint (data : List Byte) : Prop :=
  (data.length < MaxVarintLen64 ∧ ∀ c ∈ data, 0x80 ≤ c.val) ∨
  (MaxVarintLen64 ≤ data.length ∧ ∀ c ∈ data.take MaxVarintLen64, 0x80 ≤ c.val) ∨
  ((∀ c ∈ data.take (MaxVarintLen64 - 1), 0x80 ≤ c.val) ∧
    ∃ t ∈ data[MaxVarintLen64 - 1]?, t.val < 0x80 ∧ 1 < t.val)

instance (data : List Byte) : Decidable (MalformedUvarint data) :=
  @instDecidableOr _ _
    (@instDecidableAnd _ _ inferInstance
      (List.decidableBAll (fun c : Byte => 0x80 ≤ c.val) data))
    (@instDecidableOr _ _
      (@instDecidableAnd _ _ inferInstance
        (List.decidableBAll (fun c : Byte => 0x80 ≤ c.val) (data.take MaxVarintLen64)))
      (@instDecidableAnd _ _
        (List.decidableBAll (fun c : Byte => 0x80 ≤ c.val) (data.take (MaxVarintLen64 - 1)))
        (Option.decidableExistsMem _)))

/-! ## Observing a run -/

/-- The calls of the request handler among the events of a run, in order. -/
def handlerCalls : List Event → List HandlerCall
  | [] => []
  | .handle call _ :: es => call :: handlerCalls es
  | _ :: es => handlerCalls es

/-- All the bytes that successive `Read` calls with buffers of the sizes `ns` yield. -/
def BufLimitReader.Reads : BufLimitReader → List Nat → List Byte
  | _, [] => []
  | b, n :: ns => (b.Read n).1 ++ BufLimitReader.Reads (b.Read n).2 ns

/-! ## Codecs and streams used as examples -/

/-- A codec with the worst-case bound of snappy's block format: `32 + n + n / 6`, and an
error where the input or that bound exceeds `0xffffffff`. -/
def snappyCodec : Compression :=
  { Name := "snappy",
    MaxEncodedLen := fun n =>
      if n > 0xffffffff ∨ 32 + n + n / 6 > 0xffffffff then
        (0, some (.other "message length is too large to compress with snappy"))
      else (32 + n + n / 6, none) }

/-- A second codec, under another name, that adds a header of 64 bytes; it reports an
error where the bound would not fit a `uint64`. -/
def gzipCodec : Compression :=
  { Name := "gzip",
    MaxEncodedLen := fun n =>
      if n + 64 < 2 ^ 64 then (n + 64, none)
      else (0, some (.other "message length is too large to compress with gzip")) }

/-- A stream that delivers the given bytes and is then closed by the peer. -/
def streamOf (bytes : List Byte) : Stream := { data := bytes, endErr := .EOF }

end reqresp

namespace status

open reqresp

/-! ## `control/actor/peer/status/serve.go` -/

/-- Modelled from the spec: the result codes of `reqresp` (success, invalid request, server
error), which `serve.go` uses as `reqresp.SuccessCode` and `reqresp.InvalidReqCode`. -/
inductive ResponseCode where
  | SuccessCode
  | InvalidReqCode
  | ServerErrCode
  deriving DecidableEq, Repr

/-- The part of `PeerStatusState` that the listener reads. -/
structure PeerStatusState (Status : Type) where
  Following : Bool
  Local : Status

/-- The calls that `listenReq` makes on its collaborators, `Status` being `methods.Status`. -/
inductive Call (Status : Type) where
  /-- The call `handler.ReadRequest(&reqStatus)`. -/
  | ReadRequest
  /-- The call `handler.WriteErrorChunk(code, msg)`. -/
  | WriteErrorChunk (code : ResponseCode) (msg : String)
  /-- The call `c.GlobalPeerInfos.Find(peerId)`. -/
  | Find
  /-- The call `inf.RegisterStatus(reqStatus)`. -/
  | RegisterStatus (reqStatus : Status)
  /-- The call `handler.WriteResponseChunk(code, &resp)`. -/
  | WriteResponseChunk (code : ResponseCode) (resp : Status)
  /-- A call `c.Log.WithFields(f).Warnf(format, ..)`. -/
  | Warnf (format : String)
  deriving DecidableEq, Repr

/-- The closure `listenReq` of `PeerStatusServeCmd.Run`, as the calls it makes in order.
`readRequest` is what `handler.ReadRequest` does (the status it decodes, or its error) and
`writeResponseChunk` is the error that `handler.WriteResponseChunk` returns; the zero value
of `methods.Status` is `default`. -/
def listenReq {Status : Type} [Inhabited Status] (state : PeerStatusState Status)
    (readRequest : Except GoError Status) (writeResponseChunk : Option GoError) :
    List (Call Status) :=
  match readRequest with
  | .error _ =>
    [.ReadRequest,
     .WriteErrorChunk .InvalidReqCode "could not parse status request",
     .Warnf "failed to read status request: %v"]
  | .ok reqStatus =>
    let resp : Status := if state.Following then default else state.Local
    [.ReadRequest, .Find, .RegisterStatus reqStatus, .WriteResponseChunk .SuccessCode resp] ++
      (match writeResponseChunk with
       | some _ => [.Warnf "failed to respond to status request: %v"]
       | none => [.Warnf "handled status request: %v"])

/-- The response chunks among the calls of `listenReq`: the calls that write one. -/
def chunksWritten {Status : Type} : List (Call Status) → List (Call Status)
  | [] => []
  | .WriteErrorChunk code msg :: cs => .WriteErrorChunk code msg :: chunksWritten cs
  | .WriteResponseChunk code resp :: cs => .WriteResponseChunk code resp :: chunksWritten cs
  | _ :: cs => chunksWritten cs

/-- The statuses registered among the calls of `listenReq`. -/
def statusesRegistered {Status : Type} : List (Call Status) → List Status
  | [] => []
  | .RegisterStatus st :: cs => st :: statusesRegistered cs
  | _ :: cs => statusesRegistered cs

/-- The method `PeerStatusServeCmd.Run` up to the registration: the protocol identifier it
passes to `h.SetStreamHandler`, or the error of `c.Host()` with which it returns before
registering anything. `base` is `methods.StatusRPCv1.Protocol`. -/
def PeerStatusServeCmd.Run (host : Except GoError Unit) (base : String)
    (comp : Option Compression) : Except GoError String :=
  match host with
  | .error err => .error err
  | .ok _ =>
    let prot := base
    let prot := match comp with
      | some c => prot ++ ("_" ++ c.Name)
      | none => prot
    .ok prot

end status

namespace reqresp

/-! ## Arithmetic of the decoder -/

theorem or_shiftLeft_of_lt (x b s : Nat) (hx : x < 2 ^ s) : x ||| (b <<< s) = x + 2 ^ s * b := by
  rw [Nat.shiftLeft_eq, Nat.or_comm, Nat.mul_comm b, ← Nat.mul_add_lt_is_or hx, Nat.add_comm]

theorem or_shiftLeft_mod (x b s : Nat) (hx : x < 2 ^ s) (hfit : 2 ^ s * b < 2 ^ 64) :
    x ||| (b <<< s) % 2 ^ 64 = x + 2 ^ s * b := by
  have hb : b <<< s = 2 ^ s * b := by rw [Nat.shiftLeft_eq, Nat.mul_comm]
  rw [Nat.mod_eq_of_lt (by rwa [hb])]
  exact or_shiftLeft_of_lt x b s hx

theorem and_0x7f (b : Nat) : b &&& 0x7f = b % 128 :=
  Nat.and_pow_two_sub_one_eq_mod b 7

theorem two_pow_seven_mul (i : Nat) : 2 ^ (7 * (i + 1)) = 128 * 2 ^ (7 * i) := by
  rw [Nat.mul_succ, Nat.pow_add]; norm_num [Nat.mul_comm]

theorem two_pow_le_of_le_eight (i : Nat) (h : i ≤ 8) : 2 ^ (7 * i) ≤ 2 ^ 56 :=
  Nat.pow_le_pow_right (by norm_num) (by omega)

/-! ## The decoder on a well-formed header -/

theorem ReadByte_cons (c : Byte) (rest : List Byte) (e : GoError) (N : Int) (hN : 0 < N) :
    BufLimitReader.ReadByte ⟨⟨c :: rest, e⟩, N⟩ = (.ok c, ⟨⟨rest, e⟩, N - 1⟩) := by
  simp [BufLimitReader.ReadByte, not_le.mpr hN]

theorem ReadByte_nil (e : GoError) (N : Int) (hN : 0 < N) :
    BufLimitReader.ReadByte ⟨⟨[], e⟩, N⟩ = (.error e, ⟨⟨[], e⟩, N⟩) := by
  simp [BufLimitReader.ReadByte, not_le.mpr hN]

theorem ReadUvarint.loop_ok (body : List Byte) (e : GoError) (t : Byte) (ht : t.val < 0x80) :
    ∀ (cs : List Byte) (todo i x : Nat) (N : Int),
      (∀ c ∈ cs, 0x80 ≤ c.val) → cs.length < todo → (cs.length : Int) < N →
      i + cs.length ≤ 9 → (i + cs.length = 9 → t.val ≤ 1) → x < 2 ^ (7 * i) →
      ReadUvarint.loop todo i x (7 * i) ⟨⟨cs ++ t :: body, e⟩, N⟩
        = ((x + 2 ^ (7 * i) * uvarintValue (cs ++ [t]), none),
            ⟨⟨body, e⟩, N - (cs.length + 1)⟩) := by
  intro cs
  induction cs with
  | nil =>
    intro todo i x N _ htodo hN hi h9 hx
    obtain ⟨todo, rfl⟩ : ∃ k, todo = k + 1 := ⟨todo - 1, by simp at htodo; omega⟩
    have hN0 : 0 < N := by simpa using hN
    have hfit : 2 ^ (7 * i) * t.val < 2 ^ 64 := by
      rcases Nat.lt_or_ge i 9 with h | h
      · have := two_pow_le_of_le_eight i (by omega)
        calc 2 ^ (7 * i) * t.val ≤ 2 ^ 56 * 128 := Nat.mul_le_mul this (by omega)
          _ < 2 ^ 64 := by norm_num
      · have hi9 : i = 9 := by simp at hi; omega
        have := h9 (by simp [hi9])
        subst hi9
        calc 2 ^ (7 * 9) * t.val ≤ 2 ^ (7 * 9) * 1 := Nat.mul_le_mul_left _ this
          _ < 2 ^ 64 := by norm_num
    have hover : ¬ (i = MaxVarintLen64 - 1 ∧ 1 < t.val) := by
      rintro ⟨h1, h2⟩
      have := h9 (by simp [MaxVarintLen64] at h1; simp [h1])
      omega
    have hmod : t.val % 128 = t.val := Nat.mod_eq_of_lt ht
    simp only [List.nil_append, ReadUvarint.loop, ReadByte_cons _ _ _ _ hN0, ht, if_true,
      hover, if_false, uvarintValue, List.length_nil]
    rw [or_shiftLeft_mod _ _ _ hx hfit, hmod]
    simp
  | cons c cs ih =>
    intro todo i x N hcs htodo hN hi h9 hx
    obtain ⟨todo, rfl⟩ : ∃ k, todo = k + 1 := ⟨todo - 1, by simp at htodo; omega⟩
    have hN0 : 0 < N := by simp at hN; omega
    have hc : ¬ c.val < 0x80 := not_lt.mpr (hcs c (List.mem_cons_self _ _))
    have hi8 : i ≤ 8 := by simp at hi; omega
    have hp := two_pow_le_of_le_eight i hi8
    have hlt : c.val % 128 < 128 := Nat.mod_lt _ (by norm_num)
    have hfit : 2 ^ (7 * i) * (c.val % 128) < 2 ^ 64 := by
      calc 2 ^ (7 * i) * (c.val % 128) ≤ 2 ^ 56 * 128 := Nat.mul_le_mul hp (by omega)
        _ < 2 ^ 64 := by norm_num
    have hacc : x ||| ((c.val &&& 0x7f) <<< (7 * i)) % 2 ^ 64
        = x + 2 ^ (7 * i) * (c.val % 128) := by
      rw [and_0x7f, or_shiftLeft_mod _ _ _ hx hfit]
    have hx' : x + 2 ^ (7 * i) * (c.val % 128) < 2 ^ (7 * (i + 1)) := by
      rw [two_pow_seven_mul]
      have : 2 ^ (7 * i) * (c.val % 128) ≤ 2 ^ (7 * i) * 127 := Nat.mul_le_mul_left _ (by omega)
      omega
    have hstep := ih todo (i + 1) (x + 2 ^ (7 * i) * (c.val % 128)) (N - 1)
      (fun d hd => hcs d (List.mem_cons_of_mem _ hd))
      (by simp at htodo; omega) (by simp at hN; omega)
      (by simp at hi; omega) (fun h => h9 (by simp; omega)) hx'
    have h7 : 7 * i + 7 = 7 * (i + 1) := by ring
    simp only [List.cons_append, ReadUvarint.loop, ReadByte_cons _ _ _ _ hN0, hc, if_false,
      hacc, h7, hstep, uvarintValue, List.length_cons]
    refine Prod.ext (Prod.ext ?_ rfl) ?_
    · simp only [two_pow_seven_mul, List.append_eq]; ring
    · simp only [BufLimitReader.mk.injEq, true_and]; push_cast; ring

theorem ReadUvarint_ok (cs : List Byte) (t : Byte) (body : List Byte) (e : GoError)
    (h : IsUvarint cs t) :
    ReadUvarint ⟨⟨cs ++ t :: body, e⟩, 10⟩
      = ((uvarintValue (cs ++ [t]), none), ⟨⟨body, e⟩, 10 - (cs.length + 1)⟩) := by
  obtain ⟨hcs, ht, hlen, h10⟩ := h
  simp only [MaxVarintLen64] at hlen h10
  have := ReadUvarint.loop_ok body e t ht cs MaxVarintLen64 0 0 10 hcs
    (by simpa [MaxVarintLen64] using hlen) (by exact_mod_cast hlen) (by omega)
    (fun h => h10 (by omega)) (by norm_num)
  simpa [ReadUvarint] using this

/-! ## What an honest peer writes -/

set_option maxRecDepth 4000 in
theorem byte_or_0x80 : ∀ y, y < 256 → (y ||| 128) % 256 = y % 128 + 128 := by decide

theorem PutUvarint.loop_spec :
    ∀ (fuel x : Nat), x < 128 ^ (fuel + 1) →
      ∃ cs t, PutUvarint.loop fuel x = some (cs ++ [t]) ∧ (∀ c ∈ cs, 0x80 ≤ c.val) ∧
        t.val < 0x80 ∧ cs.length ≤ fuel ∧ uvarintValue (cs ++ [t]) = x ∧
        t.val * 128 ^ cs.length ≤ x := by
  have hlast : ∀ x, x < 128 → (Fin.ofNat x : Byte).val = x := fun x hx => by
    show x % 256 = x
    omega
  intro fuel
  induction fuel with
  | zero =>
    intro x hx
    have hx' : x < 128 := by simpa using hx
    refine ⟨[], Fin.ofNat x, ?_, by simp, ?_, le_refl _, ?_, ?_⟩
    · simp [PutUvarint.loop, not_le.mpr hx']
    · rw [hlast x hx']; exact hx'
    · simp only [List.nil_append, uvarintValue, hlast x hx']; omega
    · simp [hlast x hx']
  | succ fuel ih =>
    intro x hx
    rcases Nat.lt_or_ge x 128 with hx' | hx'
    · refine ⟨[], Fin.ofNat x, ?_, by simp, ?_, Nat.zero_le _, ?_, ?_⟩
      · simp [PutUvarint.loop, not_le.mpr hx']
      · rw [hlast x hx']; exact hx'
      · simp only [List.nil_append, uvarintValue, hlast x hx']; omega
      · simp [hlast x hx']
    · have hdiv : x >>> 7 = x / 128 := by rw [Nat.shiftRight_eq_div_pow]
      have hsmall : x / 128 < 128 ^ (fuel + 1) := by
        rw [Nat.div_lt_iff_lt_mul (by norm_num)]
        calc x < 128 ^ (fuel + 1 + 1) := hx
          _ = 128 ^ (fuel + 1) * 128 := by ring
      obtain ⟨cs, t, hloop, hcs, ht, hlen, hval, hpow⟩ := ih (x / 128) hsmall
      have hc : (Fin.ofNat (x % 256 ||| 0x80) : Byte).val = x % 128 + 128 := by
        show (x % 256 ||| 128) % 256 = x % 128 + 128
        rw [byte_or_0x80 (x % 256) (Nat.mod_lt _ (by norm_num))]
        omega
      refine ⟨Fin.ofNat (x % 256 ||| 0x80) :: cs, t, ?_, ?_, ht, by simpa using hlen, ?_, ?_⟩
      · simp [PutUvarint.loop, hx', hdiv, hloop]
      · intro d hd
        rcases List.mem_cons.mp hd with rfl | hd
        · rw [hc]; omega
        · exact hcs d hd
      · show (Fin.ofNat (x % 256 ||| 0x80) : Byte).val % 128
            + 128 * uvarintValue (cs ++ [t]) = x
        rw [hc, hval]
        omega
      · simp only [List.length_cons, pow_succ]
        have := Nat.div_mul_le_self x 128
        calc t.val * (128 ^ cs.length * 128) = t.val * 128 ^ cs.length * 128 := by ring
          _ ≤ x / 128 * 128 := Nat.mul_le_mul_right _ hpow
          _ ≤ x := this

/-- Every `uint64` has a varint encoding, the one that `binary.PutUvarint` writes; it is
well formed and stands for the number encoded. -/
theorem PutUvarint_spec (x : Nat) (hx : x < 2 ^ 64) :
    ∃ cs t, PutUvarint x = some (cs ++ [t]) ∧ IsUvarint cs t ∧
      uvarintValue (cs ++ [t]) = x := by
  obtain ⟨cs, t, hloop, hcs, ht, hlen, hval, hpow⟩ :=
    PutUvarint.loop_spec 9 x (lt_of_lt_of_le hx (by norm_num))
  refine ⟨cs, t, hloop, ⟨hcs, ht, by simp only [MaxVarintLen64]; omega, ?_⟩, hval⟩
  intro h9
  simp only [MaxVarintLen64] at h9
  have h9' : cs.length = 9 := by omega
  rw [h9'] at hpow
  by_contra hgt
  have : 2 * 128 ^ 9 ≤ t.val * 128 ^ 9 := Nat.mul_le_mul_right _ (by omega)
  have h2 : (2 : Nat) * 128 ^ 9 = 2 ^ 64 := by norm_num
  omega

/-- The decoder reads back what `binary.PutUvarint` writes, and stops right behind it. -/
theorem ReadUvarint_PutUvarint (x : Nat) (hx : x < 2 ^ 64) (body : List Byte) (e : GoError) :
    ∃ hdr, PutUvarint x = some hdr ∧
      ReadUvarint ⟨⟨hdr ++ body, e⟩, 10⟩ = ((x, none), ⟨⟨body, e⟩, 10 - hdr.length⟩) := by
  obtain ⟨cs, t, hput, hwf, hval⟩ := PutUvarint_spec x hx
  refine ⟨cs ++ [t], hput, ?_⟩
  have := ReadUvarint_ok cs t body e hwf
  rw [hval] at this
  simpa using this

/-! ## The decoder on an arbitrary stream -/

theorem ReadUvarint.loop_none (e : GoError) :
    ∀ (todo i x s : Nat) (data : List Byte) (N : Int),
      (ReadUvarint.loop todo i x s ⟨⟨data, e⟩, N⟩).1.2 = none →
      ∃ cs t body, data = cs ++ t :: body ∧ (∀ c ∈ cs, 0x80 ≤ c.val) ∧ t.val < 0x80 ∧
        cs.length < todo ∧ (i + cs.length = 9 → t.val ≤ 1) := by
  intro todo
  induction todo with
  | zero => intro i x s data N h; simp [ReadUvarint.loop] at h
  | succ todo ih =>
    intro i x s data N h
    rcases le_or_lt N 0 with hN | hN
    · simp [ReadUvarint.loop, BufLimitReader.ReadByte, hN] at h
    · cases data with
      | nil => simp [ReadUvarint.loop, ReadByte_nil _ _ hN] at h
      | cons c rest =>
        simp only [ReadUvarint.loop, ReadByte_cons _ _ _ _ hN] at h
        by_cases hc : c.val < 0x80
        · simp only [hc, if_true] at h
          by_cases ho : i = MaxVarintLen64 - 1 ∧ 1 < c.val
          · simp [ho] at h
          · refine ⟨[], c, rest, rfl, by simp, hc, by simp, ?_⟩
            intro h9
            simp only [MaxVarintLen64, List.length_nil] at ho h9
            omega
        · simp only [hc, if_false] at h
          obtain ⟨cs, t, body, hd, hcs, ht, hlen, h9⟩ := ih _ _ _ _ _ h
          refine ⟨c :: cs, t, body, by simp [hd], ?_, ht, by simpa using hlen, ?_⟩
          · intro d hd
            rcases List.mem_cons.mp hd with rfl | hd
            · exact not_lt.mp hc
            · exact hcs d hd
          · intro h
            exact h9 (by simp at h; omega)

theorem ReadUvarint.loop_reads (e : GoError) :
    ∀ (todo i x s : Nat) (data : List Byte) (N : Int),
      ∃ k, k ≤ todo ∧
        (ReadUvarint.loop todo i x s ⟨⟨data, e⟩, N⟩).2.rd = ⟨data.drop k, e⟩ := by
  intro todo
  induction todo with
  | zero => intro i x s data N; exact ⟨0, le_refl _, by simp [ReadUvarint.loop]⟩
  | succ todo ih =>
    intro i x s data N
    rcases le_or_lt N 0 with hN | hN
    · exact ⟨0, Nat.zero_le _, by simp [ReadUvarint.loop, BufLimitReader.ReadByte, hN]⟩
    · cases data with
      | nil => exact ⟨0, Nat.zero_le _, by simp [ReadUvarint.loop, ReadByte_nil _ _ hN]⟩
      | cons c rest =>
        simp only [ReadUvarint.loop, ReadByte_cons _ _ _ _ hN]
        by_cases hc : c.val < 0x80
        · refine ⟨1, by omega, ?_⟩
          by_cases ho : i = MaxVarintLen64 - 1 ∧ 1 < c.val <;> simp [hc, ho]
        · obtain ⟨k, hk, hrd⟩ := ih (i + 1) (x ||| ((c.val &&& 0x7f) <<< s) % 2 ^ 64) (s + 7)
            rest (N - 1)
          exact ⟨k + 1, by omega, by simpa [hc] using hrd⟩

theorem ReadUvarint_none (data : List Byte) (e : GoError) (N : Int)
    (h : (ReadUvarint ⟨⟨data, e⟩, N⟩).1.2 = none) : StartsWithUvarint data := by
  obtain ⟨cs, t, body, hd, hcs, ht, hlen, h9⟩ := ReadUvarint.loop_none e _ _ _ _ _ _ h
  exact ⟨cs, t, body, hd, hcs, ht, hlen, fun h => h9 (by simp [MaxVarintLen64] at h; omega)⟩

theorem ReadUvarint_err (data : List Byte) (e : GoError) (N : Int)
    (h : ¬ StartsWithUvarint data) : (ReadUvarint ⟨⟨data, e⟩, N⟩).1.2 ≠ none :=
  fun hn => h (ReadUvarint_none data e N hn)

theorem ReadUvarint_reads (data : List Byte) (e : GoError) (N : Int) :
    ∃ k, k ≤ 10 ∧ (ReadUvarint ⟨⟨data, e⟩, N⟩).2.rd = ⟨data.drop k, e⟩ :=
  ReadUvarint.loop_reads e MaxVarintLen64 0 0 0 data N

/-! ## The decoder before Go 1.15 -/

theorem ReadUvarintLegacy.loop_agrees (e : GoError) :
    ∀ (todo i x s : Nat) (data : List Byte), i + todo = 10 →
      ∃ res, ReadUvarintLegacy.loop (todo + 1) i x s ⟨⟨data, e⟩, todo⟩ = some res ∧
        res.1.1 = (ReadUvarint.loop todo i x s ⟨⟨data, e⟩, todo⟩).1.1 ∧
        (res.1.2 = none ↔ (ReadUvarint.loop todo i x s ⟨⟨data, e⟩, todo⟩).1.2 = none) ∧
        res.2 = (ReadUvarint.loop todo i x s ⟨⟨data, e⟩, todo⟩).2 := by
  intro todo
  induction todo with
  | zero =>
    intro i x s data _
    simp [ReadUvarintLegacy.loop, ReadUvarint.loop, BufLimitReader.ReadByte]
  | succ todo ih =>
    intro i x s data hi
    have hN : (0 : Int) < (todo : Int) + 1 := by omega
    have hcast : (todo : Int) + 1 - 1 = (todo : Int) := by omega
    have h9 : ¬ 9 < i := by omega
    rw [ReadUvarintLegacy.loop, ReadUvarint.loop]
    push_cast
    cases data with
    | nil =>
      simp only [ReadByte_nil _ _ hN]
      exact ⟨_, rfl, rfl, by simp, rfl⟩
    | cons c rest =>
      simp only [ReadByte_cons _ _ _ _ hN, hcast]
      by_cases hc : c.val < 0x80
      · by_cases ho : i = 9 ∧ 1 < c.val
        · have ho' : i = MaxVarintLen64 - 1 ∧ 1 < c.val := by
            simpa [MaxVarintLen64] using ho
          rw [if_pos hc, if_pos hc, if_pos (Or.inr ho), if_pos ho']
          exact ⟨_, rfl, rfl, by simp, rfl⟩
        · have ho' : ¬ (i = MaxVarintLen64 - 1 ∧ 1 < c.val) := by
            simpa [MaxVarintLen64] using ho
          rw [if_pos hc, if_pos hc, if_neg (fun h => h.elim h9 ho), if_neg ho']
          exact ⟨_, rfl, rfl, Iff.rfl, rfl⟩
      · simp only [hc, if_false]
        exact ih (i + 1) _ (s + 7) rest (by omega)

/-- On the reader of the stream handler, whose budget is 10, the decoder of Go before 1.15
ends within eleven iterations, with the value, the reader and the presence of an error
that the current decoder gives. -/
theorem ReadUvarintLegacy_agrees (stream : Stream) :
    ∃ res, ReadUvarintLegacy 11 ⟨stream, 10⟩ = some res ∧
      res.1.1 = (ReadUvarint ⟨stream, 10⟩).1.1 ∧
      (res.1.2 = none ↔ (ReadUvarint ⟨stream, 10⟩).1.2 = none) ∧
      res.2 = (ReadUvarint ⟨stream, 10⟩).2 :=
  ReadUvarintLegacy.loop_agrees stream.endErr 10 0 0 0 stream.data rfl

/-! ## The header step of the stream handler -/

theorem intOfUint64_zero : intOfUint64 0 = 0 := by decide

theorem intOfUint64_le (x : Nat) : intOfUint64 x ≤ (x : Int) := by
  unfold intOfUint64
  have h : x % 2 ^ 64 ≤ x := Nat.mod_le _ _
  split <;> omega

theorem intOfUint64_of_lt (x : Nat) (h : x < 2 ^ 63) : intOfUint64 x = (x : Int) := by
  unfold intOfUint64
  have h1 : x % 2 ^ 64 = x := Nat.mod_eq_of_lt (by omega)
  rw [h1, if_pos h]

theorem Read_of_N_zero (b : BufLimitReader) (h : b.N = 0) (n : Nat) : b.Read n = ([], b) := by
  cases b
  simp only at h
  subst h
  simp [BufLimitReader.Read]

theorem ReadByte_of_N_zero (b : BufLimitReader) (h : b.N = 0) :
    b.ReadByte = (.error .readBudgetExceeded, b) := by
  simp [BufLimitReader.ReadByte, h]

/-- The header step on a stream that starts with a well-formed varint. -/
theorem header_of_uvarint (comp : Option Compression) (L : Nat) (cs : List Byte) (t : Byte)
    (body : List Byte) (e : GoError) (h : IsUvarint cs t) :
    MakeStreamHandler.header comp L ⟨cs ++ t :: body, e⟩ =
      if uvarintValue (cs ++ [t]) > L then
        (uvarintValue (cs ++ [t]), some (.requestTooLarge (uvarintValue (cs ++ [t])) L),
          ⟨⟨body, e⟩, 0⟩)
      else
        match comp with
        | some c =>
          match c.MaxEncodedLen L with
          | (_, some err) => (uvarintValue (cs ++ [t]), some err, ⟨⟨body, e⟩, 0⟩)
          | (s, none) => (uvarintValue (cs ++ [t]), none, ⟨⟨body, e⟩, intOfUint64 s⟩)
        | none => (uvarintValue (cs ++ [t]), none, ⟨⟨body, e⟩, intOfUint64 L⟩) := by
  simp only [MakeStreamHandler.header, NewBufLimitReader, ReadUvarint_ok cs t body e h]
  by_cases hbig : uvarintValue (cs ++ [t]) > L
  · simp [hbig, intOfUint64_zero]
  · cases comp with
    | none => simp [hbig]
    | some c =>
      rcases hc : c.MaxEncodedLen L with ⟨s, _ | err⟩ <;> simp [hbig, hc, intOfUint64_zero]

/-- The header step on a stream that does not start with a well-formed varint. -/
theorem header_of_not_uvarint (comp : Option Compression) (L : Nat) (stream : Stream)
    (h : ¬ StartsWithUvarint stream.data) :
    (MakeStreamHandler.header comp L stream).2.1 = (ReadUvarint ⟨stream, 10⟩).1.2 ∧
      (MakeStreamHandler.header comp L stream).2.1 ≠ none ∧
      (MakeStreamHandler.header comp L stream).2.2.N = 0 := by
  have herr := ReadUvarint_err stream.data stream.endErr 10 h
  simp only [MakeStreamHandler.header, NewBufLimitReader]
  rcases hr : ReadUvarint ⟨stream, 10⟩ with ⟨⟨v, err⟩, r⟩
  have herr' : err ≠ none := by simpa [hr] using herr
  obtain ⟨e0, rfl⟩ := Option.ne_none_iff_exists'.mp herr'
  simp [intOfUint64_zero]

/-! ## Malformed headers -/

theorem mem_take_of_split (cs : List Byte) (t : Byte) (body : List Byte) (n : Nat)
    (h : cs.length < n) : t ∈ (cs ++ t :: body).take n := by
  obtain ⟨k, rfl⟩ : ∃ k, n = cs.length + (k + 1) := ⟨n - cs.length - 1, by omega⟩
  rw [List.take_append, List.take_succ_cons]
  simp

theorem getElem?_of_split (cs : List Byte) (t : Byte) (body : List Byte) :
    (cs ++ t :: body)[cs.length]? = some t := by
  rw [List.getElem?_append_right (le_refl _)]
  simp

theorem not_startsWithUvarint_of_malformed (data : List Byte) (h : MalformedUvarint data) :
    ¬ StartsWithUvarint data := by
  rintro ⟨cs, t, body, rfl, hcs, ht, hlen, h10⟩
  simp only [MaxVarintLen64] at hlen h10
  rcases h with ⟨_, hall⟩ | ⟨_, hall⟩ | ⟨hall, t', ht', hlt, hgt⟩
  · have := hall t (by simp)
    omega
  · have := hall t (mem_take_of_split cs t body _ (by simpa [MaxVarintLen64] using hlen))
    omega
  · simp only [MaxVarintLen64] at hall ht'
    rcases Nat.lt_or_ge cs.length 9 with h9 | h9
    · have := hall t (mem_take_of_split cs t body _ h9)
      omega
    · have hlen9 : cs.length = 9 := by omega
      have hget := getElem?_of_split cs t body
      rw [hlen9] at hget
      have : t' = t := by
        rw [Option.mem_def, hget] at ht'
        exact (Option.some.inj ht').symm
      subst this
      have := h10 hlen9
      omega

theorem scan_continuation (n : Nat) :
    ∀ data : List Byte, (∀ c ∈ data.take n, 0x80 ≤ c.val) ∨
      ∃ cs t body, data = cs ++ t :: body ∧ cs.length < n ∧ (∀ c ∈ cs, 0x80 ≤ c.val) ∧
        t.val < 0x80 := by
  induction n with
  | zero => intro data; left; simp
  | succ n ih =>
    intro data
    cases data with
    | nil => left; simp
    | cons c rest =>
      by_cases hc : c.val < 0x80
      · right; exact ⟨[], c, rest, rfl, by simp, by simp, hc⟩
      · rcases ih rest with hall | ⟨cs, t, body, rfl, hlen, hcs, ht⟩
        · left
          intro d hd
          rw [List.take_succ_cons] at hd
          rcases List.mem_cons.mp hd with rfl | hd
          · exact not_lt.mp hc
          · exact hall d hd
        · right
          refine ⟨c :: cs, t, body, rfl, by simpa using hlen, ?_, ht⟩
          intro d hd
          rcases List.mem_cons.mp hd with rfl | hd
          · exact not_lt.mp hc
          · exact hcs d hd

theorem malformed_of_not_startsWithUvarint (data : List Byte) (h : ¬ StartsWithUvarint data) :
    MalformedUvarint data := by
  rcases scan_continuation 10 data with hall | ⟨cs, t, body, rfl, hlen, hcs, ht⟩
  · rcases Nat.lt_or_ge data.length 10 with hl | hl
    · left
      refine ⟨by simpa [MaxVarintLen64] using hl, ?_⟩
      rwa [List.take_of_length_le (by omega)] at hall
    · right; left
      exact ⟨by simpa [MaxVarintLen64] using hl, by simpa [MaxVarintLen64] using hall⟩
  · by_cases hover : cs.length = 9 ∧ 1 < t.val
    · right; right
      obtain ⟨h9, hgt⟩ := hover
      refine ⟨?_, t, ?_, ht, hgt⟩
      · simp only [MaxVarintLen64]
        rw [List.take_left' h9]
        exact hcs
      · have := getElem?_of_split cs t body
        rw [h9] at this
        simpa [MaxVarintLen64] using this
    · exfalso
      apply h
      refine ⟨cs, t, body, rfl, hcs, ht, by simpa [MaxVarintLen64] using hlen, ?_⟩
      intro h9
      simp only [MaxVarintLen64] at h9
      by_contra hgt
      exact hover ⟨by omega, by omega⟩

/-- Every stream either starts with a well-formed varint or is malformed in one of the
three ways, and never both. -/
theorem malformed_iff (data : List Byte) : MalformedUvarint data ↔ ¬ StartsWithUvarint data :=
  ⟨not_startsWithUvarint_of_malformed data, malformed_of_not_startsWithUvarint data⟩

/-! ## The one call of the request handler -/

theorem handlerCalls_MakeStreamHandler (comp : Option Compression) (L : Nat) (stream : Stream)
    (outcome : HandlerOutcome) :
    handlerCalls (MakeStreamHandler comp L stream outcome)
      = [MakeStreamHandler.call comp L stream] := by
  cases comp <;> rfl

theorem call_eq (comp : Option Compression) (L : Nat) (stream : Stream) :
    (MakeStreamHandler.call comp L stream).requestLen
        = (MakeStreamHandler.header comp L stream).1 ∧
      (MakeStreamHandler.call comp L stream).invalidInputErr
        = (MakeStreamHandler.header comp L stream).2.1 ∧
      (MakeStreamHandler.call comp L stream).r.blr
        = (MakeStreamHandler.header comp L stream).2.2 := by
  cases comp <;> simp [MakeStreamHandler.call]

theorem Reads_of_N_zero (b : BufLimitReader) (h : b.N = 0) (ns : List Nat) :
    b.Reads ns = [] := by
  induction ns with
  | nil => rfl
  | cons n ns ih => simp [BufLimitReader.Reads, Read_of_N_zero b h, ih]

theorem Reads_length_le : ∀ (ns : List Nat) (b : BufLimitReader),
    ((b.Reads ns).length : Int) ≤ max b.N 0 := by
  intro ns
  induction ns with
  | nil => intro b; simp [BufLimitReader.Reads]
  | cons n ns ih =>
    intro b
    have h := ih (b.Read n).2
    simp only [BufLimitReader.Reads, List.length_append, BufLimitReader.Read,
      List.length_take] at h ⊢
    omega

/-! ## Rejection -/

/-- C1: when the stream starts with a well-formed varint whose value exceeds the policy
limit `maxRequestContentSize`, then for every codec setting the request handler is called
once, with the declared length, with a non-nil `invalidInputErr` (the size error) and with
the bounded reader's budget `N` at 0, so that no read from it yields a byte. -/
theorem oversized_request_rejected (comp : Option Compression) (maxRequestContentSize : Nat)
    (cs : List Byte) (t : Byte) (body : List Byte) (endErr : GoError)
    (outcome : HandlerOutcome) (hwf : IsUvarint cs t)
    (hbig : maxRequestContentSize < uvarintValue (cs ++ [t])) :
    ∃ call,
      handlerCalls (MakeStreamHandler comp maxRequestContentSize ⟨cs ++ t :: body, endErr⟩
        outcome) = [call] ∧
      call.requestLen = uvarintValue (cs ++ [t]) ∧
      call.invalidInputErr
        = some (.requestTooLarge (uvarintValue (cs ++ [t])) maxRequestContentSize) ∧
      call.invalidInputErr ≠ none ∧
      call.r.blr.N = 0 ∧
      (∀ ns, call.r.blr.Reads ns = []) ∧
      call.r.blr.ReadByte.1 = .error .readBudgetExceeded := by
  refine ⟨_, handlerCalls_MakeStreamHandler _ _ _ _, ?_⟩
  obtain ⟨h1, h2, h3⟩ := call_eq comp maxRequestContentSize ⟨cs ++ t :: body, endErr⟩
  have hh := header_of_uvarint comp maxRequestContentSize cs t body endErr hwf
  rw [if_pos hbig] at hh
  have hN : (MakeStreamHandler.call comp maxRequestContentSize
      ⟨cs ++ t :: body, endErr⟩).r.blr.N = 0 := by rw [h3, hh]
  refine ⟨by rw [h1, hh], by rw [h2, hh], by rw [h2, hh]; simp, hN,
    fun ns => Reads_of_N_zero _ hN ns, by rw [ReadByte_of_N_zero _ hN]⟩

/-- C2: when the leading bytes of the stream are not a complete, in-range unsigned varint
(the stream ends before a byte without continuation bit, ten bytes in a row carry the
continuation bit, or the tenth byte overflows 64 bits), the request handler is still called
once, with a non-nil `invalidInputErr`, the error of the decoder, and the reader's budget
`N` at 0; decoding the header took at most ten bytes from the stream, and the unbounded
loop of the decoder before Go 1.15 ends as well, within eleven iterations and with an
error. -/
theorem malformed_header_rejected (comp : Option Compression) (maxRequestContentSize : Nat)
    (stream : Stream) (outcome : HandlerOutcome) (hbad : MalformedUvarint stream.data) :
    ∃ call,
      handlerCalls (MakeStreamHandler comp maxRequestContentSize stream outcome) = [call] ∧
      call.invalidInputErr ≠ none ∧
      call.invalidInputErr = (ReadUvarint ⟨stream, 10⟩).1.2 ∧
      call.r.blr.N = 0 ∧
      (∀ ns, call.r.blr.Reads ns = []) ∧
      (∃ k, k ≤ 10 ∧ call.r.blr.rd.data = stream.data.drop k) ∧
      ∃ res, ReadUvarintLegacy 11 ⟨stream, 10⟩ = some res ∧ res.1.2 ≠ none := by
  refine ⟨_, handlerCalls_MakeStreamHandler _ _ _ _, ?_⟩
  obtain ⟨_, h2, h3⟩ := call_eq comp maxRequestContentSize stream
  obtain ⟨e1, e2, e3⟩ := header_of_not_uvarint comp maxRequestContentSize stream
    ((malformed_iff _).mp hbad)
  have hN : (MakeStreamHandler.call comp maxRequestContentSize stream).r.blr.N = 0 := by
    rw [h3, e3]
  have hlegacy : ∃ res, ReadUvarintLegacy 11 ⟨stream, 10⟩ = some res ∧ res.1.2 ≠ none := by
    obtain ⟨res, hres, _, hiff, _⟩ := ReadUvarintLegacy_agrees stream
    exact ⟨res, hres, fun hn =>
      ReadUvarint_err stream.data stream.endErr 10 ((malformed_iff _).mp hbad) (hiff.mp hn)⟩
  refine ⟨by rw [h2]; exact e2, by rw [h2, e1], hN, fun ns => Reads_of_N_zero _ hN ns, ?_,
    hlegacy⟩
  obtain ⟨k, hk, hrd⟩ := ReadUvarint_reads stream.data stream.endErr 10
  refine ⟨k, hk, ?_⟩
  rw [h3]
  simp only [MakeStreamHandler.header, NewBufLimitReader]
  have : (ReadUvarint ⟨stream, 10⟩).2.rd.data = stream.data.drop k := by
    have := congrArg Stream.data hrd
    simpa using this
  exact this

/-- Scenario C of the specification: a declared length of 10000 (bytes `90 4e`) against a
policy limit of 84, with the snappy codec configured. -/
theorem oversized_request_rejected_witness :
    IsUvarint [0x90] 0x4e ∧ 84 < uvarintValue ([0x90] ++ [0x4e]) ∧
      ∃ call,
        handlerCalls (MakeStreamHandler (some snappyCodec) 84
          ⟨[0x90] ++ 0x4e :: [1, 2, 3], .EOF⟩ .returned) = [call] ∧
        call.requestLen = 10000 ∧ call.invalidInputErr ≠ none ∧ call.r.blr.N = 0 :=
  ⟨by decide, by decide,
    (oversized_request_rejected (some snappyCodec) 84 [0x90] 0x4e [1, 2, 3] .EOF .returned
      (by decide) (by decide)).imp
      fun _ h => ⟨h.1, h.2.1.trans (by decide), h.2.2.2.1, h.2.2.2.2.1⟩⟩

/-- Scenario B of the specification: the stream delivers three bytes, all with the
continuation bit, and is closed. -/
theorem malformed_header_rejected_witness :
    MalformedUvarint (streamOf [0x90, 0x90, 0x80]).data ∧
      ∃ call,
        handlerCalls (MakeStreamHandler none 84 (streamOf [0x90, 0x90, 0x80]) .returned)
          = [call] ∧
        call.invalidInputErr ≠ none ∧ call.r.blr.N = 0 :=
  ⟨by decide,
    (malformed_header_rejected none 84 (streamOf [0x90, 0x90, 0x80]) .returned
      (by decide)).imp
      fun _ h => ⟨h.1, h.2.1, h.2.2.2.1⟩⟩

/-! ## Acceptance -/

/-- C3, as stated, fails: with the snappy codec and a policy limit of `2 ^ 32` the codec
cannot bound the encoded length of the limit, and a well-formed request that declares
84 bytes is handed over with a non-nil `invalidInputErr`. -/
theorem accepted_request_counterexample :
    IsUvarint [] 84 ∧ uvarintValue ([] ++ [84]) ≤ 2 ^ 32 ∧
      ∃ call,
        handlerCalls (MakeStreamHandler (some snappyCodec) (2 ^ 32) (streamOf [84])
          .returned) = [call] ∧
        call.invalidInputErr ≠ none := by
  refine ⟨by decide, by decide, _, handlerCalls_MakeStreamHandler _ _ _ _, ?_⟩
  decide

/-- C3, amended: when the stream starts with a well-formed varint whose value is at most
the policy limit, and the codec, if one is configured, returns no error from
`MaxEncodedLen` on the limit, the request handler is called once with
`invalidInputErr = nil`, with the declared length as `requestLen`, and with a reader whose
budget `N`, and so the number of bytes it can yield, is at most the policy limit (no
codec) or at most the codec's bound for the limit (codec configured). -/
theorem accepted_request (comp : Option Compression) (maxRequestContentSize : Nat)
    (cs : List Byte) (t : Byte) (body : List Byte) (endErr : GoError)
    (outcome : HandlerOutcome) (hwf : IsUvarint cs t)
    (hle : uvarintValue (cs ++ [t]) ≤ maxRequestContentSize)
    (hcodec : ∀ c, comp = some c → (c.MaxEncodedLen maxRequestContentSize).2 = none) :
    ∃ call,
      handlerCalls (MakeStreamHandler comp maxRequestContentSize ⟨cs ++ t :: body, endErr⟩
        outcome) = [call] ∧
      call.invalidInputErr = none ∧
      call.requestLen = uvarintValue (cs ++ [t]) ∧
      call.r.blr.rd.data = body ∧
      (comp = none →
        call.r.blr.N ≤ (maxRequestContentSize : Int) ∧
        ∀ ns, (call.r.blr.Reads ns).length ≤ maxRequestContentSize) ∧
      (∀ c, comp = some c →
        call.r.blr.N ≤ ((c.MaxEncodedLen maxRequestContentSize).1 : Int) ∧
        ∀ ns, (call.r.blr.Reads ns).length ≤ (c.MaxEncodedLen maxRequestContentSize).1) := by
  refine ⟨_, handlerCalls_MakeStreamHandler _ _ _ _, ?_⟩
  obtain ⟨h1, h2, h3⟩ := call_eq comp maxRequestContentSize ⟨cs ++ t :: body, endErr⟩
  have hh := header_of_uvarint comp maxRequestContentSize cs t body endErr hwf
  rw [if_neg (not_lt.mpr hle)] at hh
  have hbound : ∀ (b : BufLimitReader) (m : Nat), b.N ≤ (m : Int) →
      ∀ ns, (b.Reads ns).length ≤ m := by
    intro b m hb ns
    have := Reads_length_le ns b
    omega
  cases comp with
  | none =>
    simp only at hh
    have hN : (MakeStreamHandler.call none maxRequestContentSize
        ⟨cs ++ t :: body, endErr⟩).r.blr.N ≤ (maxRequestContentSize : Int) := by
      rw [h3, hh]; exact intOfUint64_le _
    refine ⟨by rw [h2, hh], by rw [h1, hh], by rw [h3, hh],
      ⟨fun _ => ⟨hN, hbound _ _ hN⟩, ?_⟩⟩
    intro c hc
    cases hc
  | some c =>
    have hnone := hcodec c rfl
    rcases hm : c.MaxEncodedLen maxRequestContentSize with ⟨s, err⟩
    rw [hm] at hnone
    simp only at hnone
    subst hnone
    simp only [hm] at hh
    have hN : (MakeStreamHandler.call (some c) maxRequestContentSize
        ⟨cs ++ t :: body, endErr⟩).r.blr.N ≤ (s : Int) := by
      rw [h3, hh]; exact intOfUint64_le _
    refine ⟨by rw [h2, hh], by rw [h1, hh], by rw [h3, hh], ⟨(fun h => nomatch h), ?_⟩⟩
    intro c' hc'
    cases hc'
    rw [hm]
    exact ⟨hN, hbound _ _ hN⟩

/-- Scenario D of the specification: snappy configured, a declared length of 84 against a
policy limit of 84: no error, and a budget of at most `MaxEncodedLen 84 = 130`. -/
theorem accepted_request_witness :
    IsUvarint [] 84 ∧ uvarintValue ([] ++ [84]) ≤ 84 ∧
      (∀ c, some snappyCodec = some c → (c.MaxEncodedLen 84).2 = none) ∧
      ∃ call,
        handlerCalls (MakeStreamHandler (some snappyCodec) 84 ⟨[] ++ 84 :: [7, 7], .EOF⟩
          .returned) = [call] ∧
        call.invalidInputErr = none ∧ call.requestLen = 84 ∧ call.r.blr.N ≤ 130 :=
  ⟨by decide, by decide, fun c h => by cases h; decide,
    (accepted_request (some snappyCodec) 84 [] 84 [7, 7] .EOF .returned (by decide)
      (by decide) (fun c h => by cases h; decide)).imp
      fun _ h => ⟨h.1, h.2.1, h.2.2.1.trans (by decide),
        (h.2.2.2.2.2 snappyCodec rfl).1.trans (by decide)⟩⟩

/-! ## The read budget -/

/-- The budget of an accepted request is `int(L)` with no codec and `int(s)` with a codec
whose `MaxEncodedLen L` is `s`; where that value is below `2 ^ 63` it is the value itself. -/
theorem budget_of_accepted_request (comp : Option Compression) (L : Nat)
    (cs : List Byte) (t : Byte) (body : List Byte) (endErr : GoError) (hwf : IsUvarint cs t)
    (hle : uvarintValue (cs ++ [t]) ≤ L) :
    (comp = none →
      (MakeStreamHandler.call comp L ⟨cs ++ t :: body, endErr⟩).r.blr.N = intOfUint64 L ∧
      (L < 2 ^ 63 →
        (MakeStreamHandler.call comp L ⟨cs ++ t :: body, endErr⟩).r.blr.N = (L : Int))) ∧
    (∀ c s, comp = some c → c.MaxEncodedLen L = (s, none) →
      (MakeStreamHandler.call comp L ⟨cs ++ t :: body, endErr⟩).r.blr.N = intOfUint64 s ∧
      (s < 2 ^ 63 →
        (MakeStreamHandler.call comp L ⟨cs ++ t :: body, endErr⟩).r.blr.N = (s : Int))) := by
  obtain ⟨_, _, h3⟩ := call_eq comp L ⟨cs ++ t :: body, endErr⟩
  have hh := header_of_uvarint comp L cs t body endErr hwf
  rw [if_neg (not_lt.mpr hle)] at hh
  constructor
  · rintro rfl
    simp only at hh
    have hN : (MakeStreamHandler.call none L ⟨cs ++ t :: body, endErr⟩).r.blr.N
        = intOfUint64 L := by rw [h3, hh]
    exact ⟨hN, fun hL => hN.trans (intOfUint64_of_lt L hL)⟩
  · rintro c s rfl hm
    simp only [hm] at hh
    have hN : (MakeStreamHandler.call (some c) L ⟨cs ++ t :: body, endErr⟩).r.blr.N
        = intOfUint64 s := by rw [h3, hh]
    exact ⟨hN, fun hs => hN.trans (intOfUint64_of_lt s hs)⟩

/-- Two requests that pass the size check under the same limit and codec get the same
budget and the same `invalidInputErr`, whatever lengths they declare. -/
theorem budget_independent_of_declared_length (comp : Option Compression) (L : Nat)
    (cs cs' : List Byte) (t t' : Byte) (body body' : List Byte) (endErr endErr' : GoError)
    (hwf : IsUvarint cs t) (hwf' : IsUvarint cs' t')
    (hle : uvarintValue (cs ++ [t]) ≤ L) (hle' : uvarintValue (cs' ++ [t']) ≤ L) :
    (MakeStreamHandler.call comp L ⟨cs ++ t :: body, endErr⟩).r.blr.N
        = (MakeStreamHandler.call comp L ⟨cs' ++ t' :: body', endErr'⟩).r.blr.N ∧
      (MakeStreamHandler.call comp L ⟨cs ++ t :: body, endErr⟩).invalidInputErr
        = (MakeStreamHandler.call comp L ⟨cs' ++ t' :: body', endErr'⟩).invalidInputErr := by
  obtain ⟨_, h2, h3⟩ := call_eq comp L ⟨cs ++ t :: body, endErr⟩
  obtain ⟨_, h2', h3'⟩ := call_eq comp L ⟨cs' ++ t' :: body', endErr'⟩
  have hh := header_of_uvarint comp L cs t body endErr hwf
  have hh' := header_of_uvarint comp L cs' t' body' endErr' hwf'
  rw [if_neg (not_lt.mpr hle)] at hh
  rw [if_neg (not_lt.mpr hle')] at hh'
  rw [h2, h3, h2', h3', hh, hh']
  cases comp with
  | none => exact ⟨rfl, rfl⟩
  | some c => rcases hm : c.MaxEncodedLen L with ⟨s, _ | err⟩ <;> simp [hm]

/-- C4 at a policy limit of `2 ^ 63` with no codec: the request that declares 0 bytes is
accepted without error, and the budget armed on the reader is `-2 ^ 63`, not the limit. -/
theorem budget_at_limit_two_pow_63 :
    IsUvarint [] 0 ∧ uvarintValue ([] ++ [0]) ≤ 2 ^ 63 ∧
      ∃ call,
        handlerCalls (MakeStreamHandler none (2 ^ 63) (streamOf [0]) .returned) = [call] ∧
        call.invalidInputErr = none ∧
        call.r.blr.N = -(2 ^ 63) ∧
        call.r.blr.N ≠ ((2 ^ 63 : Nat) : Int) := by
  refine ⟨by decide, by decide, _, handlerCalls_MakeStreamHandler _ _ _ _, ?_⟩
  decide

/-- C10 at the final limits `2 ^ 64 - 1` (a policy limit, no codec) and `2 ^ 63` (the
bound a codec gives for the policy limit `2 ^ 63 - 64`): the `int` stored in `N` is `-1`
and `-2 ^ 63`, negative and smaller than the limit it was converted from. -/
theorem budget_conversion_wraps :
    intOfUint64 (2 ^ 64 - 1) = -1 ∧
      (∃ call,
        handlerCalls (MakeStreamHandler none (2 ^ 64 - 1) (streamOf [0]) .returned)
          = [call] ∧
        call.invalidInputErr = none ∧ call.r.blr.N = -1) ∧
      gzipCodec.MaxEncodedLen (2 ^ 63 - 64) = (2 ^ 63, none) ∧
      ∃ call,
        handlerCalls (MakeStreamHandler (some gzipCodec) (2 ^ 63 - 64) (streamOf [0])
          .returned) = [call] ∧
        call.invalidInputErr = none ∧ call.r.blr.N = -(2 ^ 63) := by
  refine ⟨by decide, ⟨_, handlerCalls_MakeStreamHandler _ _ _ _, by decide⟩, by decide,
    ⟨_, handlerCalls_MakeStreamHandler _ _ _ _, by decide⟩⟩

/-! ## Errors of the codec -/

/-- C5: the request handler is called once, and (1) when the header is well formed, the
declared length is within the policy limit, a codec is configured and its
`MaxEncodedLen` on the limit returns the error `err`, then `invalidInputErr` is `err` and
the budget `N` is 0, so no read yields a byte; (2) when the header is malformed,
`invalidInputErr` is the error of `ReadUvarint`, and (3) when the declared length exceeds
the limit it is the size error: in both cases the same error as with no codec at all. -/
theorem codec_limit_error (comp : Option Compression) (maxRequestContentSize : Nat)
    (stream : Stream) (outcome : HandlerOutcome) :
    ∃ call,
      handlerCalls (MakeStreamHandler comp maxRequestContentSize stream outcome) = [call] ∧
      (∀ c cs t body err, comp = some c → stream.data = cs ++ t :: body → IsUvarint cs t →
        uvarintValue (cs ++ [t]) ≤ maxRequestContentSize →
        (c.MaxEncodedLen maxRequestContentSize).2 = some err →
        call.invalidInputErr = some err ∧ call.r.blr.N = 0 ∧
          ∀ ns, call.r.blr.Reads ns = []) ∧
      (MalformedUvarint stream.data →
        call.invalidInputErr = (ReadUvarint ⟨stream, 10⟩).1.2 ∧
        call.invalidInputErr ≠ none ∧
        call.invalidInputErr
          = (MakeStreamHandler.call none maxRequestContentSize stream).invalidInputErr) ∧
      (∀ cs t body, stream.data = cs ++ t :: body → IsUvarint cs t →
        maxRequestContentSize < uvarintValue (cs ++ [t]) →
        call.invalidInputErr
          = some (.requestTooLarge (uvarintValue (cs ++ [t])) maxRequestContentSize) ∧
        call.invalidInputErr
          = (MakeStreamHandler.call none maxRequestContentSize stream).invalidInputErr) := by
  refine ⟨_, handlerCalls_MakeStreamHandler _ _ _ _, ?_, ?_, ?_⟩
  · rintro c cs t body err rfl hd hwf hle herr
    obtain ⟨data, endErr⟩ := stream
    simp only at hd
    subst hd
    obtain ⟨_, h2, h3⟩ := call_eq (some c) maxRequestContentSize ⟨cs ++ t :: body, endErr⟩
    have hh := header_of_uvarint (some c) maxRequestContentSize cs t body endErr hwf
    rw [if_neg (not_lt.mpr hle)] at hh
    rcases hm : c.MaxEncodedLen maxRequestContentSize with ⟨s, e⟩
    rw [hm] at herr
    simp only at herr
    subst herr
    simp only [hm] at hh
    have hN : (MakeStreamHandler.call (some c) maxRequestContentSize
        ⟨cs ++ t :: body, endErr⟩).r.blr.N = 0 := by rw [h3, hh]
    exact ⟨by rw [h2, hh], hN, fun ns => Reads_of_N_zero _ hN ns⟩
  · intro hbad
    have hns := (malformed_iff _).mp hbad
    obtain ⟨_, h2, _⟩ := call_eq comp maxRequestContentSize stream
    obtain ⟨_, h2', _⟩ := call_eq none maxRequestContentSize stream
    obtain ⟨e1, e2, _⟩ := header_of_not_uvarint comp maxRequestContentSize stream hns
    obtain ⟨e1', _, _⟩ := header_of_not_uvarint none maxRequestContentSize stream hns
    exact ⟨by rw [h2, e1], by rw [h2]; exact e2, by rw [h2, h2', e1, e1']⟩
  · rintro cs t body hd hwf hbig
    obtain ⟨data, endErr⟩ := stream
    simp only at hd
    subst hd
    obtain ⟨_, h2, _⟩ := call_eq comp maxRequestContentSize ⟨cs ++ t :: body, endErr⟩
    obtain ⟨_, h2', _⟩ := call_eq none maxRequestContentSize ⟨cs ++ t :: body, endErr⟩
    have hh := header_of_uvarint comp maxRequestContentSize cs t body endErr hwf
    have hh' := header_of_uvarint none maxRequestContentSize cs t body endErr hwf
    rw [if_pos hbig] at hh hh'
    exact ⟨by rw [h2, hh], by rw [h2, h2', hh, hh']⟩

/-- The three parts of `codec_limit_error` at work: snappy under a policy limit of
`2 ^ 32`, on a request that declares 84 bytes, on a header cut short after three bytes, and
on a request that declares `2 ^ 63` bytes. -/
theorem codec_limit_error_witness :
    (∃ call,
      handlerCalls (MakeStreamHandler (some snappyCodec) (2 ^ 32) (streamOf [84, 1, 2])
        .returned) = [call] ∧
      call.invalidInputErr
        = some (.other "message length is too large to compress with snappy") ∧
      call.r.blr.N = 0) ∧
    (∃ call,
      handlerCalls (MakeStreamHandler (some snappyCodec) (2 ^ 32)
        (streamOf [0x90, 0x90, 0x80]) .returned) = [call] ∧
      call.invalidInputErr = some .ErrUnexpectedEOF) ∧
    (∃ call,
      handlerCalls (MakeStreamHandler (some snappyCodec) (2 ^ 32)
        (streamOf [0x80, 0x80, 0x80, 0x80, 0x80, 0x80, 0x80, 0x80, 0x80, 0x01]) .returned)
        = [call] ∧
      call.invalidInputErr = some (.requestTooLarge (2 ^ 63) (2 ^ 32))) :=
  ⟨(codec_limit_error (some snappyCodec) (2 ^ 32) (streamOf [84, 1, 2]) .returned).imp
      fun _ h =>
        have h1 := h.2.1 snappyCodec [] 84 [1, 2]
          (.other "message length is too large to compress with snappy") rfl rfl
          (by decide) (by decide) (by decide)
        ⟨h.1, h1.1, h1.2.1⟩,
    (codec_limit_error (some snappyCodec) (2 ^ 32) (streamOf [0x90, 0x90, 0x80])
      .returned).imp
      fun _ h => ⟨h.1, (h.2.2.1 (by decide)).1.trans (by decide)⟩,
    (codec_limit_error (some snappyCodec) (2 ^ 32)
      (streamOf [0x80, 0x80, 0x80, 0x80, 0x80, 0x80, 0x80, 0x80, 0x80, 0x01])
      .returned).imp
      fun _ h => ⟨h.1,
        (h.2.2.2 [0x80, 0x80, 0x80, 0x80, 0x80, 0x80, 0x80, 0x80, 0x80] 0x01 [] rfl
          (by decide) (by decide)).1.trans (by decide)⟩⟩

/-! ## Deferred clean-up -/

/-- C6, as stated, fails: with no codec the goroutine of the stream handler spawns the
watcher, calls the request handler and cancels the context; it closes no writer. -/
theorem writer_closed_counterexample :
    MakeStreamHandler none 84 (streamOf [84]) .returned
        = [.goWatcher,
           .handle (MakeStreamHandler.call none 84 (streamOf [84])) .returned,
           .cancel] ∧
      (MakeStreamHandler.call none 84 (streamOf [84])).w = .stream ∧
      ∀ w, Event.closeWriter w ∉ MakeStreamHandler none 84 (streamOf [84]) .returned := by
  refine ⟨rfl, rfl, ?_⟩
  intro w hw
  simp [MakeStreamHandler] at hw

/-- C6, amended: for every stream and every way the request handler ends, the stream
handler calls the request handler once; with a codec configured the writer `w` handed
to it is the codec's compressing writer, and the stream handler closes it right after the
request handler ends and before it cancels the context and returns; with no codec `w` is
the stream, and the stream handler closes no writer: it cancels the context and returns,
which leaves closing the stream to the watcher. -/
theorem writer_closed_when_compressing (comp : Option Compression)
    (maxRequestContentSize : Nat) (stream : Stream) (outcome : HandlerOutcome) :
    ∃ call,
      handlerCalls (MakeStreamHandler comp maxRequestContentSize stream outcome) = [call] ∧
      (∀ c, comp = some c →
        call.w = .compress c.Name ∧
        MakeStreamHandler comp maxRequestContentSize stream outcome
          = [.goWatcher, .handle call outcome, .closeWriter call.w, .cancel]) ∧
      (comp = none →
        call.w = .stream ∧
        MakeStreamHandler comp maxRequestContentSize stream outcome
          = [.goWatcher, .handle call outcome, .cancel]) := by
  refine ⟨_, handlerCalls_MakeStreamHandler _ _ _ _, ?_, ?_⟩
  · rintro c rfl
    exact ⟨rfl, rfl⟩
  · rintro rfl
    exact ⟨rfl, rfl⟩

/-- The amended C6 with snappy configured and a request handler that panics. -/
theorem writer_closed_when_compressing_witness :
    ∃ call,
      MakeStreamHandler (some snappyCodec) 84 (streamOf [84]) .panicked
        = [.goWatcher, .handle call .panicked, .closeWriter (.compress "snappy"), .cancel] :=
  (writer_closed_when_compressing (some snappyCodec) 84 (streamOf [84]) .panicked).imp
    fun _ h => (h.2.1 snappyCodec rfl).2.trans (by rw [(h.2.1 snappyCodec rfl).1]; rfl)

end reqresp

namespace status

open reqresp

/-! ## The protocol identifier of a registration -/

theorem append_ne_self (base suffix : String) (h : suffix.data ≠ []) : base ++ suffix ≠ base := by
  intro heq
  have hd := congrArg String.data heq
  rw [String.data_append] at hd
  have hl := congrArg List.length hd
  rw [List.length_append] at hl
  have : suffix.data.length = 0 := by omega
  exact h (List.length_eq_zero.mp this)

theorem append_left_cancel (base s₁ s₂ : String) (h : base ++ s₁ = base ++ s₂) : s₁ = s₂ := by
  have hd := congrArg String.data h
  rw [String.data_append, String.data_append] at hd
  exact String.ext (List.append_cancel_left hd)

/-- C7: when `c.Host()` succeeds, `PeerStatusServeCmd.Run` registers under the base
identifier itself when the compression is nil and under `base ++ "_" ++ comp.Name()` when
one is configured; so for a fixed base two codecs with different names are registered
under different identifiers, and each of them under another identifier than the
uncompressed listener. -/
theorem registered_protocol_id (base : String) :
    PeerStatusServeCmd.Run (.ok ()) base none = .ok base ∧
      (∀ c : Compression,
        PeerStatusServeCmd.Run (.ok ()) base (some c) = .ok (base ++ "_" ++ c.Name)) ∧
      (∀ c₁ c₂ : Compression, c₁.Name ≠ c₂.Name →
        PeerStatusServeCmd.Run (.ok ()) base (some c₁)
          ≠ PeerStatusServeCmd.Run (.ok ()) base (some c₂)) ∧
      (∀ c : Compression,
        PeerStatusServeCmd.Run (.ok ()) base (some c)
          ≠ PeerStatusServeCmd.Run (.ok ()) base none) := by
  refine ⟨rfl, ?_, ?_, ?_⟩
  · intro c
    simp only [PeerStatusServeCmd.Run]
    congr 1
    exact String.ext (by simp [String.data_append])
  · intro c₁ c₂ hne heq
    simp only [PeerStatusServeCmd.Run, Except.ok.injEq] at heq
    have h1 := append_left_cancel base _ _ heq
    exact hne (append_left_cancel "_" _ _ h1)
  · intro c heq
    simp only [PeerStatusServeCmd.Run, Except.ok.injEq] at heq
    refine append_ne_self base ("_" ++ c.Name) ?_ heq
    rw [String.data_append]
    simp

/-- The registrations of the snappy, the gzip and the uncompressed status listener. -/
theorem registered_protocol_id_witness :
    PeerStatusServeCmd.Run (.ok ()) "/eth2/beacon_chain/req/status/1/ssz" (some snappyCodec)
        = .ok "/eth2/beacon_chain/req/status/1/ssz_snappy" ∧
      PeerStatusServeCmd.Run (.ok ()) "/eth2/beacon_chain/req/status/1/ssz" (some snappyCodec)
        ≠ PeerStatusServeCmd.Run (.ok ()) "/eth2/beacon_chain/req/status/1/ssz"
            (some gzipCodec) :=
  ⟨((registered_protocol_id "/eth2/beacon_chain/req/status/1/ssz").2.1 snappyCodec).trans
      (congrArg Except.ok (by decide)),
    (registered_protocol_id "/eth2/beacon_chain/req/status/1/ssz").2.2.1 snappyCodec
      gzipCodec (by decide)⟩

/-! ## The chunks of the status listener -/

/-- C8: the status listener writes exactly one chunk per request. When
`handler.ReadRequest` returns an error it is one error chunk with code `InvalidReqCode`,
no success chunk, and no status is registered; when `ReadRequest` succeeds it is one
success chunk with code `SuccessCode` and no error chunk, whether or not
`WriteResponseChunk` returns an error, and the request's status is registered. -/
theorem listenReq_writes_one_chunk {Status : Type} [Inhabited Status]
    (state : PeerStatusState Status) (writeResponseChunk : Option GoError) :
    (∀ err : GoError,
      chunksWritten (listenReq state (.error err) writeResponseChunk)
          = [.WriteErrorChunk .InvalidReqCode "could not parse status request"] ∧
        statusesRegistered (listenReq state (.error err) writeResponseChunk) = []) ∧
      (∀ reqStatus : Status,
        chunksWritten (listenReq state (.ok reqStatus) writeResponseChunk)
            = [.WriteResponseChunk .SuccessCode
                (if state.Following then default else state.Local)] ∧
          statusesRegistered (listenReq state (.ok reqStatus) writeResponseChunk)
            = [reqStatus]) := by
  refine ⟨fun err => ⟨rfl, rfl⟩, fun reqStatus => ?_⟩
  cases writeResponseChunk <;> exact ⟨rfl, rfl⟩

/-- The status listener on a request that parses, with a failing write of the response. -/
theorem listenReq_writes_one_chunk_witness :
    chunksWritten (listenReq (⟨false, 7⟩ : PeerStatusState Nat) (.ok 3)
        (some (.other "stream reset")))
      = [.WriteResponseChunk .SuccessCode 7] :=
  ((listenReq_writes_one_chunk (⟨false, 7⟩ : PeerStatusState Nat)
    (some (.other "stream reset"))).2 3).1

end status
